import Mathlib

/-!
Verification of the OMP_Lab2 repository: the custom reader-writer lock
(my_rwlock.c, embedded in src/firstTask.c lines 265-469) and the linked-list
workload harness (src/LAB2_TASK3/src/test_pthread_rwlock.c).

The rwlock state is the four counters protected by the internal mutex; each
complete mutex-protected region of the C code becomes one atomic step of a
labelled transition relation.  The harness's sorted-list operations become
recursive functions on `List Int`, and the worker loop becomes a fold over
the per-iteration random draws.
-/

namespace RwLock

/-- State of `my_rwlock_t`: `active_readers`, `waiting_readers` and
`waiting_writers` are C `int` counters (modelled as `Int`), `writer_active`
is the C int flag used as a boolean.  `my_rwlock_init` zeroes all four. -/
structure RwState where
  active_readers : Int
  waiting_readers : Int
  waiting_writers : Int
  writer_active : Bool
deriving DecidableEq, Repr

/-- The state produced by `my_rwlock_init`: all counters zero, flag clear. -/
def initState : RwState :=
  { active_readers := 0, waiting_readers := 0, waiting_writers := 0,
    writer_active := false }

/-- The wakeup issued by `my_rwlock_unlock` after updating the counters:
`pthread_cond_signal(&writers_cv)`, `pthread_cond_broadcast(&readers_cv)`,
or no call at all. -/
inductive WakeAction where
  | signalWriter
  | broadcastReaders
  | noWake
deriving DecidableEq, Repr

/-- `my_rwlock_unlock` on a non-null lock (src/firstTask.c lines 433-469):
if `writer_active` it clears the flag and applies the wake policy
(signal one writer if `waiting_writers > 0`, else broadcast readers if
`waiting_readers > 0`, else nothing); otherwise it decrements
`active_readers` and applies the same wake policy only when the decremented
count equals zero.  Returns the updated state and the wakeup issued. -/
def my_rwlock_unlock (s : RwState) : RwState × WakeAction :=
  if s.writer_active then
    let s1 := { s with writer_active := false }
    if 0 < s.waiting_writers then (s1, .signalWriter)
    else if 0 < s.waiting_readers then (s1, .broadcastReaders)
    else (s1, .noWake)
  else
    let s1 := { s with active_readers := s.active_readers - 1 }
    if s1.active_readers = 0 then
      if 0 < s.waiting_writers then (s1, .signalWriter)
      else if 0 < s.waiting_readers then (s1, .broadcastReaders)
      else (s1, .noWake)
    else (s1, .noWake)

/-- State component of `my_rwlock_unlock`. -/
def unlockState (s : RwState) : RwState := (my_rwlock_unlock s).1

/-- Labels for the atomic mutex-protected regions of the lock operations. -/
inductive Label where
  | rdEnq     -- rdlock: waiting_readers++
  | rdAdmit   -- rdlock: wait loop exits, waiting_readers--, active_readers++
  | wrEnq     -- wrlock: waiting_writers++
  | wrAdmit   -- wrlock: wait loop exits, waiting_writers--, writer_active = 1
  | unlock    -- my_rwlock_unlock body
deriving DecidableEq, Repr

/-- One atomic step of the lock, taken from the C sources: a reader entering
`my_rwlock_rdlock` increments `waiting_readers`; a waiting reader leaves the
wait loop only when `!writer_active && waiting_writers <= 0` (the C guard is
`while (writer_active || waiting_writers > 0)`); a writer entering
`my_rwlock_wrlock` increments `waiting_writers`; a waiting writer leaves its
loop only when `active_readers <= 0 && !writer_active` (the C guard is
`while (active_readers > 0 || writer_active)`); `unlock` performs
`my_rwlock_unlock`, which has no guard. -/
inductive Step : RwState → Label → RwState → Prop where
  | rdEnq (s : RwState) :
      Step s .rdEnq { s with waiting_readers := s.waiting_readers + 1 }
  | rdAdmit (s : RwState)
      (hq : 0 < s.waiting_readers)
      (hw : s.writer_active = false) (hww : ¬ 0 < s.waiting_writers) :
      Step s .rdAdmit { s with waiting_readers := s.waiting_readers - 1,
                               active_readers := s.active_readers + 1 }
  | wrEnq (s : RwState) :
      Step s .wrEnq { s with waiting_writers := s.waiting_writers + 1 }
  | wrAdmit (s : RwState)
      (hq : 0 < s.waiting_writers)
      (ha : ¬ 0 < s.active_readers) (hw : s.writer_active = false) :
      Step s .wrAdmit { s with waiting_writers := s.waiting_writers - 1,
                               writer_active := true }
  | unlock (s : RwState) :
      Step s .unlock (unlockState s)

/-- States reachable from `initState` by any interleaving of the atomic
regions of `my_rwlock_rdlock`, `my_rwlock_wrlock` and `my_rwlock_unlock`
(no restriction at all on when `unlock` may run). -/
inductive Reachable : RwState → Prop where
  | init : Reachable initState
  | step {s s' : RwState} {l : Label} :
      Reachable s → Step s l s' → Reachable s'

/-- A lock holder exists: either the writer flag is set or some reader is
active.  This is the (unchecked) precondition of `my_rwlock_unlock`. -/
def HolderPresent (s : RwState) : Prop :=
  s.writer_active = true ∨ 0 < s.active_readers

/-- States reachable when every call to `my_rwlock_unlock` is made by a
thread actually holding the lock (the intended usage). -/
inductive ReachableM : RwState → Prop where
  | init : ReachableM initState
  | step {s s' : RwState} {l : Label} :
      ReachableM s → Step s l s' →
      (l = .unlock → HolderPresent s) → ReachableM s'

/-- The key inductive invariant: while the writer flag is set, the reader
count is not positive. -/
def MutexInv (s : RwState) : Prop :=
  s.writer_active = true → s.active_readers ≤ 0

lemma mutexInv_init : MutexInv initState := by
  intro h
  simp [initState] at h

lemma mutexInv_step {s s' : RwState} {l : Label}
    (hs : MutexInv s) (hstep : Step s l s') : MutexInv s' := by
  cases hstep with
  | rdEnq => exact hs
  | rdAdmit hq hw hww =>
      intro h
      simp only [hw] at h
      cases h
  | wrEnq => exact hs
  | wrAdmit hq ha hw =>
      intro _
      simpa using not_lt.mp ha
  | unlock =>
      intro h
      unfold unlockState my_rwlock_unlock at h ⊢
      by_cases hw : s.writer_active
      · simp only [hw, if_true] at h ⊢
        split at h <;> simp_all
        split at h <;> simp_all
      · simp only [hw, Bool.false_eq_true, if_false] at h ⊢
        split at h
        · split at h
          · simp_all
          · split at h <;> simp_all
        · simp only at h
          simp [hw] at h

lemma mutexInv_reachable {s : RwState} (h : Reachable s) : MutexInv s := by
  induction h with
  | init => exact mutexInv_init
  | step _ hstep ih => exact mutexInv_step ih hstep

/-- C1: In every state reachable from the zeroed initial state by any
interleaving of `my_rwlock_rdlock`, `my_rwlock_wrlock` and
`my_rwlock_unlock` steps, `writer_active` and `active_readers > 0` never
hold simultaneously. -/
theorem rwlock_mutual_exclusion {s : RwState} (h : Reachable s) :
    ¬ (s.writer_active = true ∧ 0 < s.active_readers) := by
  rintro ⟨hw, ha⟩
  have := mutexInv_reachable h hw
  omega

/-- Witness for C1: the theorem applied at the concrete reachable state
obtained by one reader enqueueing and being admitted. -/
theorem rwlock_mutual_exclusion_witness :
    ¬ ((⟨1, 0, 0, false⟩ : RwState).writer_active = true ∧
       0 < (⟨1, 0, 0, false⟩ : RwState).active_readers) :=
  rwlock_mutual_exclusion
    (Reachable.step
      (Reachable.step Reachable.init (Step.rdEnq initState))
      (Step.rdAdmit { initState with waiting_readers := 1 }
        (by decide) (by decide) (by decide)))

/-- All three counters of the lock are nonnegative.  This holds along every
trace in which `my_rwlock_unlock` is only called by a thread holding the
lock; an unmatched unlock can break it (see the underflow theorem below). -/
def NonnegInv (s : RwState) : Prop :=
  0 ≤ s.active_readers ∧ 0 ≤ s.waiting_readers ∧ 0 ≤ s.waiting_writers

lemma nonnegInv_step {s s' : RwState} {l : Label}
    (ih : NonnegInv s) (hstep : Step s l s')
    (hheld : l = .unlock → HolderPresent s) : NonnegInv s' := by
  obtain ⟨h1, h2, h3⟩ := ih
  cases hstep with
  | rdEnq => exact ⟨h1, by simp; omega, h3⟩
  | rdAdmit hq hw hww => exact ⟨by simp; omega, by simp; omega, h3⟩
  | wrEnq => exact ⟨h1, h2, by simp; omega⟩
  | wrAdmit hq ha hw => exact ⟨h1, h2, by simp; omega⟩
  | unlock =>
      have hp := hheld rfl
      unfold unlockState my_rwlock_unlock
      by_cases hw : s.writer_active
      · simp only [hw, if_true]
        split
        · exact ⟨h1, h2, h3⟩
        · split <;> exact ⟨h1, h2, h3⟩
      · have har : 0 < s.active_readers := by
          cases hp with
          | inl h => exact absurd h (by simp [hw])
          | inr h => exact h
        simp only [hw, Bool.false_eq_true, if_false]
        split
        · split
          · exact ⟨by simp; omega, h2, h3⟩
          · split <;> exact ⟨by simp; omega, h2, h3⟩
        · exact ⟨by simp; omega, h2, h3⟩

lemma nonnegInv_reachableM {s : RwState} (h : ReachableM s) : NonnegInv s := by
  induction h with
  | init => exact ⟨le_refl 0, le_refl 0, le_refl 0⟩
  | step _ hstep hheld ih => exact nonnegInv_step ih hstep hheld

/-- C3: In the step relation, along any trace where unlock is only called by
a lock holder, a waiting reader is admitted (waiting_readers decremented,
active_readers incremented) only in a state with `writer_active = false` and
`waiting_writers = 0`, and a waiting writer is admitted (writer flag set)
only in a state with `active_readers = 0` and `writer_active = false`. -/
theorem rwlock_admission_guards {s s' : RwState} (hs : ReachableM s) :
    (Step s .rdAdmit s' →
      s.writer_active = false ∧ s.waiting_writers = 0 ∧
      s'.waiting_readers = s.waiting_readers - 1 ∧
      s'.active_readers = s.active_readers + 1) ∧
    (Step s .wrAdmit s' →
      s.active_readers = 0 ∧ s.writer_active = false ∧
      s'.writer_active = true) := by
  obtain ⟨h1, h2, h3⟩ := nonnegInv_reachableM hs
  constructor
  · intro hstep
    cases hstep with
    | rdAdmit hq hw hww => exact ⟨hw, by omega, by simp, by simp⟩
  · intro hstep
    cases hstep with
    | wrAdmit hq ha hw => exact ⟨by omega, hw, by simp⟩

/-- Witness for C3: the guard theorem at the state with one enqueued reader,
reached from the initial state by a single `rdEnq` step. -/
theorem rwlock_admission_guards_witness :
    (⟨0, 1, 0, false⟩ : RwState).writer_active = false ∧
    (⟨0, 1, 0, false⟩ : RwState).waiting_writers = 0 ∧
    (⟨1, 0, 0, false⟩ : RwState).waiting_readers =
      (⟨0, 1, 0, false⟩ : RwState).waiting_readers - 1 ∧
    (⟨1, 0, 0, false⟩ : RwState).active_readers =
      (⟨0, 1, 0, false⟩ : RwState).active_readers + 1 :=
  (rwlock_admission_guards
      (ReachableM.step ReachableM.init (Step.rdEnq initState)
        (fun h => nomatch h))).1
    (Step.rdAdmit ⟨0, 1, 0, false⟩ (by decide) (by decide) (by decide))

/-- C10: `my_rwlock_unlock` has no guard against an unmatched release: on a
state with `writer_active = false` and `active_readers = 0` (any waiting
counts) it decrements `active_readers` to -1, breaking nonnegativity. -/
theorem unlock_unguarded_underflow (wr ww : Int) :
    (unlockState ⟨0, wr, ww, false⟩).active_readers = -1 ∧
    ¬ 0 ≤ (unlockState ⟨0, wr, ww, false⟩).active_readers := by
  unfold unlockState my_rwlock_unlock
  norm_num

/-- The wake policy described by the specification: signal one writer when
writers wait, else broadcast to readers when readers wait, else nothing. -/
def specWakePolicy (s : RwState) : WakeAction :=
  if 0 < s.waiting_writers then .signalWriter
  else if 0 < s.waiting_readers then .broadcastReaders
  else .noWake

/-- Counterexample for C2: a reader releases while another reader is still
active (`active_readers = 2`) and a writer is waiting; the code issues no
wakeup, while the claimed policy demands that one writer be signaled. -/
theorem unlock_wake_policy_counterexample :
    0 < (⟨2, 0, 1, false⟩ : RwState).waiting_writers ∧
    (my_rwlock_unlock ⟨2, 0, 1, false⟩).2 = WakeAction.noWake ∧
    (my_rwlock_unlock ⟨2, 0, 1, false⟩).2 ≠ WakeAction.signalWriter := by
  refine ⟨by decide, ?_, ?_⟩ <;> decide

/-- C2 (amended): a writer release clears the flag and applies the wake
policy; a reader release decrements `active_readers` and applies the wake
policy only when the decremented count is zero (the last reader), issuing
no wakeup otherwise. -/
theorem unlock_wake_policy (s : RwState) :
    (s.writer_active = true →
      (my_rwlock_unlock s).1.writer_active = false ∧
      (my_rwlock_unlock s).2 = specWakePolicy s) ∧
    (s.writer_active = false →
      (my_rwlock_unlock s).1.active_readers = s.active_readers - 1 ∧
      (s.active_readers = 1 → (my_rwlock_unlock s).2 = specWakePolicy s) ∧
      (s.active_readers ≠ 1 → (my_rwlock_unlock s).2 = WakeAction.noWake)) := by
  unfold my_rwlock_unlock specWakePolicy
  constructor
  · intro hw
    simp only [hw, if_true]
    split
    · exact ⟨rfl, rfl⟩
    · split <;> exact ⟨rfl, rfl⟩
  · intro hw
    simp only [hw, Bool.false_eq_true, if_false]
    refine ⟨?_, ?_, ?_⟩
    · split
      · split
        · rfl
        · split <;> rfl
      · rfl
    · intro h1
      simp only [h1]
      norm_num
      split
      · rfl
      · split <;> rfl
    · intro hne
      have : ¬ (s.active_readers - 1 = 0) := by omega
      split
      · simp_all
      · rfl

/-- Witness for C2: the amended policy evaluated at a writer release with
one waiting writer, which signals exactly one writer. -/
theorem unlock_wake_policy_witness :
    (my_rwlock_unlock ⟨0, 0, 1, true⟩).1.writer_active = false ∧
    (my_rwlock_unlock ⟨0, 0, 1, true⟩).2 = specWakePolicy ⟨0, 0, 1, true⟩ :=
  (unlock_wake_policy ⟨0, 0, 1, true⟩).1 rfl

/-- The pthread EINVAL error code, returned by every lock operation on a
null handle. -/
def EINVAL : Int := 22

/-- Return code of `my_rwlock_rdlock` (src/firstTask.c lines 363-383),
as a function of whether the handle is null and of the return codes
reported by the internal `pthread_mutex_lock`, `pthread_cond_wait` (one per
wait-loop iteration) and `pthread_mutex_unlock` calls.  The source invokes
those primitives without binding their results, so after the null-handle
check the function always returns 0, whatever the primitives reported. -/
def rdlockReturn (handleNull : Bool) (mutexLockRC : Int)
    (condWaitRCs : List Int) (mutexUnlockRC : Int) : Int :=
  if handleNull then EINVAL else 0

/-- Return code of `my_rwlock_wrlock` (src/firstTask.c lines 400-420):
same shape as `rdlockReturn`; the primitive return codes are discarded. -/
def wrlockReturn (handleNull : Bool) (mutexLockRC : Int)
    (condWaitRCs : List Int) (mutexUnlockRC : Int) : Int :=
  if handleNull then EINVAL else 0

/-- Return code of `my_rwlock_unlock` (src/firstTask.c lines 433-469),
given the handle-null flag and the return codes of the internal
`pthread_mutex_lock`, `pthread_cond_signal`/`pthread_cond_broadcast` and
`pthread_mutex_unlock` calls, all of which the source discards. -/
def unlockReturn (handleNull : Bool) (mutexLockRC : Int)
    (wakeRC : Int) (mutexUnlockRC : Int) : Int :=
  if handleNull then EINVAL else 0

/-- Counterexample for C4: on a non-null handle with the internal mutex
lock reporting the nonzero code EINVAL, `my_rwlock_rdlock` still returns 0:
the failure code is swallowed, not propagated. -/
theorem primitive_failure_not_propagated :
    EINVAL ≠ 0 ∧
    rdlockReturn false EINVAL [] 0 = 0 ∧
    rdlockReturn false EINVAL [] 0 ≠ EINVAL := by
  refine ⟨by decide, rfl, by decide⟩

/-- C4 (amended): `my_rwlock_rdlock`, `my_rwlock_wrlock` and
`my_rwlock_unlock` return EINVAL on a null handle and 0 on a non-null
handle regardless of the return codes reported by the underlying mutex and
condition-variable primitives: those codes are discarded, never
propagated. -/
theorem lock_ops_return_codes (mutexLockRC wakeRC mutexUnlockRC : Int)
    (condWaitRCs : List Int) :
    rdlockReturn false mutexLockRC condWaitRCs mutexUnlockRC = 0 ∧
    wrlockReturn false mutexLockRC condWaitRCs mutexUnlockRC = 0 ∧
    unlockReturn false mutexLockRC wakeRC mutexUnlockRC = 0 ∧
    rdlockReturn true mutexLockRC condWaitRCs mutexUnlockRC = EINVAL ∧
    wrlockReturn true mutexLockRC condWaitRCs mutexUnlockRC = EINVAL ∧
    unlockReturn true mutexLockRC wakeRC mutexUnlockRC = EINVAL :=
  ⟨rfl, rfl, rfl, rfl, rfl, rfl⟩

end RwLock

namespace Harness

/-- Observable outcome of the harness process
(src/LAB2_TASK3/src/test_pthread_rwlock.c): the exit status and whether the
usage message was printed to the error stream. -/
structure MainOutcome where
  exitCode : Int
  usageToStderr : Bool
deriving DecidableEq, Repr

/-- Exit code used by `Usage` (lines 130-133): it prints
the usage string to stderr and then calls `exit(0)`. -/
def usageExitCode : Int := 0

/-- Exit behaviour of `main` (lines 64-127) as a function of `argc`:
with `argc != 2` it calls `Usage`, which writes to stderr and exits with
`usageExitCode`; otherwise it runs to completion and returns 0.  The
`malloc` of `thread_handles` at line 94 is never checked, so the program
has no allocation-failure exit path. -/
def mainOutcome (argc : Nat) : MainOutcome :=
  if argc ≠ 2 then ⟨usageExitCode, true⟩ else ⟨0, false⟩

/-- Counterexample for C5: invoked with the wrong argument count
(argc = 1), the harness prints the usage message to stderr but exits with
status 0, not a non-zero status. -/
theorem main_exit_status_counterexample :
    (mainOutcome 1).usageToStderr = true ∧ (mainOutcome 1).exitCode = 0 := by
  constructor <;> rfl

/-- C5 (amended): the harness exits with status 0 both on successful
completion and on invalid invocation; a wrong argument count prints a usage
message to the error stream before the (still zero) exit, and allocation
failure is never detected, so it produces no error exit or message. -/
theorem main_exit_status (argc : Nat) :
    (mainOutcome argc).exitCode = 0 ∧
    ((mainOutcome argc).usageToStderr = true ↔ argc ≠ 2) := by
  unfold mainOutcome
  by_cases h : argc = 2 <;> simp [h, usageExitCode]

/-- `Insert` (lines 150-174): walk past keys < value; at the first key
>= value (or the end), splice a new node in unless the key equals value, in
which case leave the list alone.  Returns the updated list and the result
flag: 1 inserted, 0 duplicate. -/
def Insert (value : Int) : List Int → List Int × Int
  | [] => ([value], 1)
  | x :: xs =>
      if x < value then
        let r := Insert value xs
        (x :: r.1, r.2)
      else if value < x then (value :: x :: xs, 1)
      else (x :: xs, 0)

/-- `Member` (lines 191-203): walk past keys < value; report 1 exactly when
the walk stops on a node whose key equals value. -/
def Member (value : Int) : List Int → Int
  | [] => 0
  | x :: xs =>
      if x < value then Member value xs
      else if value < x then 0
      else 1

/-- `Delete` (lines 207-229): walk past keys < value; if the walk stops on
a node whose key equals value, unlink it and report 1, else report 0. -/
def Delete (value : Int) : List Int → List Int × Int
  | [] => ([], 0)
  | x :: xs =>
      if x < value then
        let r := Delete value xs
        (x :: r.1, r.2)
      else if x = value then (xs, 1)
      else (x :: xs, 0)

/-- C7: inserting a key already present in a strictly sorted list returns
the duplicate result 0 and the unchanged list. -/
theorem insert_duplicate_noop (value : Int) (l : List Int)
    (hs : l.Sorted (· < ·)) (hmem : value ∈ l) :
    Insert value l = (l, 0) := by
  induction l with
  | nil => cases hmem
  | cons x xs ih =>
      rw [List.sorted_cons] at hs
      unfold Insert
      rcases List.mem_cons.mp hmem with h | h
      · subst h
        simp
      · have hlt : x < value := hs.1 value h
        simp only [if_pos hlt, ih hs.2 h]

/-- Witness for C7: inserting 5 into [3, 5, 7] is a no-op with result 0. -/
theorem insert_duplicate_noop_witness :
    Insert 5 [3, 5, 7] = ([3, 5, 7], 0) :=
  insert_duplicate_noop 5 [3, 5, 7] (by decide) (by decide)

lemma mem_of_mem_insert {value y : Int} {l : List Int}
    (h : y ∈ (Insert value l).1) : y = value ∨ y ∈ l := by
  induction l with
  | nil =>
      simp only [Insert, List.mem_singleton] at h
      exact Or.inl h
  | cons x xs ih =>
      unfold Insert at h
      split at h
      · rcases List.mem_cons.mp h with h1 | h1
        · exact Or.inr (List.mem_cons.mpr (Or.inl h1))
        · rcases ih h1 with h2 | h2
          · exact Or.inl h2
          · exact Or.inr (List.mem_cons.mpr (Or.inr h2))
      · split at h
        · rcases List.mem_cons.mp h with h1 | h1
          · exact Or.inl h1
          · exact Or.inr h1
        · exact Or.inr h

lemma insert_sorted {value : Int} {l : List Int}
    (hs : l.Sorted (· < ·)) : (Insert value l).1.Sorted (· < ·) := by
  induction l with
  | nil => simp [Insert]
  | cons x xs ih =>
      rw [List.sorted_cons] at hs
      unfold Insert
      split
      · rename_i hlt
        rw [List.sorted_cons]
        refine ⟨?_, ih hs.2⟩
        intro y hy
        rcases mem_of_mem_insert hy with h | h
        · exact h ▸ hlt
        · exact hs.1 y h
      · split
        · rename_i hxv hvx
          rw [List.sorted_cons]
          refine ⟨?_, List.sorted_cons.mpr hs⟩
          intro y hy
          rcases List.mem_cons.mp hy with h | h
          · exact h ▸ hvx
          · exact lt_trans hvx (hs.1 y h)
        · exact List.sorted_cons.mpr hs

lemma delete_sublist (value : Int) (l : List Int) :
    (Delete value l).1.Sublist l := by
  induction l with
  | nil => simp [Delete]
  | cons x xs ih =>
      unfold Delete
      split
      · exact List.Sublist.cons₂ x ih
      · split
        · exact List.sublist_cons_self x xs
        · exact List.Sublist.refl (x :: xs)

lemma delete_sorted {value : Int} {l : List Int}
    (hs : l.Sorted (· < ·)) : (Delete value l).1.Sorted (· < ·) :=
  hs.sublist (delete_sublist value l)

/-- An element of the workload on the list: an insert or a delete of a
given key, as performed by the write-lock branches of Thread_work. -/
inductive ListOp where
  | insertOp (value : Int)
  | deleteOp (value : Int)
deriving DecidableEq, Repr

/-- Apply one list operation, keeping only the resulting list. -/
def applyOp (l : List Int) : ListOp → List Int
  | .insertOp v => (Insert v l).1
  | .deleteOp v => (Delete v l).1

/-- Apply a sequence of inserts and deletes from left to right. -/
def applyOps (l : List Int) (ops : List ListOp) : List Int :=
  ops.foldl applyOp l

/-- C8: starting from any strictly sorted list, every sequence of Insert
and Delete operations leaves the list strictly sorted, hence without
duplicate keys. -/
theorem list_sorted_invariant (l : List Int) (ops : List ListOp)
    (hs : l.Sorted (· < ·)) :
    (applyOps l ops).Sorted (· < ·) ∧ (applyOps l ops).Nodup := by
  suffices h : (applyOps l ops).Sorted (· < ·) from ⟨h, h.nodup⟩
  induction ops generalizing l with
  | nil => exact hs
  | cons op ops ih =>
      cases op with
      | insertOp v => exact ih ((Insert v l).1) (insert_sorted hs)
      | deleteOp v => exact ih ((Delete v l).1) (delete_sorted hs)

/-- Witness for C8: inserting 2 and then deleting 3 starting from [1, 3]
yields a strictly sorted, duplicate-free list. -/
theorem list_sorted_invariant_witness :
    (applyOps [1, 3] [ListOp.insertOp 2, ListOp.deleteOp 3]).Sorted (· < ·) ∧
    (applyOps [1, 3] [ListOp.insertOp 2, ListOp.deleteOp 3]).Nodup :=
  list_sorted_invariant [1, 3] [ListOp.insertOp 2, ListOp.deleteOp 3]
    (by decide)

/-- The per-thread local operation counters of `Thread_work`
(my_member_count, my_insert_count, my_delete_count). -/
structure Counts where
  member_count : Nat
  insert_count : Nat
  delete_count : Nat
deriving DecidableEq, Repr

/-- Local counters at the start of `Thread_work`. -/
def zeroCounts : Counts := ⟨0, 0, 0⟩

/-- Total of the three counters. -/
def countsSum (c : Counts) : Nat :=
  c.member_count + c.insert_count + c.delete_count

/-- Counter merge performed under count_mutex at the end of `Thread_work`
(lines 289-293): each shared total gains the corresponding local count. -/
def addCounts (a b : Counts) : Counts :=
  ⟨a.member_count + b.member_count, a.insert_count + b.insert_count,
   a.delete_count + b.delete_count⟩

/-- Shared totals after every worker has merged its local counters. -/
def mergedTotals (perThread : List Counts) : Counts :=
  perThread.foldl addCounts zeroCounts

/-- Lock mode acquired for one iteration: the read lock exactly when the
selector classifies the operation as a search, the write lock otherwise. -/
inductive LockMode where
  | readLock
  | writeLock
deriving DecidableEq, Repr

/-- The lock acquired by the branch chosen in `Thread_work` (lines
267-285): `pthread_rwlock_rdlock` when which_op < search_percent, else
`pthread_rwlock_wrlock`. -/
def iterLockMode (search_percent : ℚ) (which_op : ℚ) : LockMode :=
  if which_op < search_percent then .readLock else .writeLock

/-- One iteration of the `Thread_work` loop (lines 263-286) on the drawn
selector which_op and key val: which_op < search_percent runs `Member`
(pure, list unchanged) and bumps the member counter; else
which_op < search_percent + insert_percent runs `Insert` and bumps the
insert counter; else runs `Delete` and bumps the delete counter.  The C
doubles are modelled as rationals; the comparisons mirror the source. -/
def threadIter (search_percent insert_percent : ℚ)
    (st : List Int × Counts) (draw : ℚ × Int) : List Int × Counts :=
  if draw.1 < search_percent then
    (st.1, { st.2 with member_count := st.2.member_count + 1 })
  else if draw.1 < search_percent + insert_percent then
    ((Insert draw.2 st.1).1,
     { st.2 with insert_count := st.2.insert_count + 1 })
  else
    ((Delete draw.2 st.1).1,
     { st.2 with delete_count := st.2.delete_count + 1 })

/-- `Thread_work` (lines 255-296) as a fold of `threadIter` over the
thread's sequence of (selector, key) draws, starting from the given list
and zeroed local counters; the loop runs
ops_per_thread = total_ops / thread_count times, i.e. the draw list has
that length. -/
def Thread_work (search_percent insert_percent : ℚ)
    (draws : List (ℚ × Int)) (l : List Int) : List Int × Counts :=
  draws.foldl (threadIter search_percent insert_percent) (l, zeroCounts)

lemma threadIter_countsSum (sp ip : ℚ) (st : List Int × Counts)
    (draw : ℚ × Int) :
    countsSum (threadIter sp ip st draw).2 = countsSum st.2 + 1 := by
  unfold threadIter countsSum
  split
  · dsimp only
    omega
  · split <;> (dsimp only; omega)

lemma foldl_threadIter_countsSum (sp ip : ℚ) (draws : List (ℚ × Int))
    (st : List Int × Counts) :
    countsSum ((draws.foldl (threadIter sp ip) st).2) =
      countsSum st.2 + draws.length := by
  induction draws generalizing st with
  | nil => rfl
  | cons d ds ih =>
      rw [List.foldl_cons, ih, threadIter_countsSum, List.length_cons]
      omega

lemma thread_work_countsSum (sp ip : ℚ) (draws : List (ℚ × Int))
    (l : List Int) :
    countsSum (Thread_work sp ip draws l).2 = draws.length := by
  unfold Thread_work
  rw [foldl_threadIter_countsSum]
  simp [zeroCounts, countsSum]

lemma mergedTotals_countsSum (cs : List Counts) :
    countsSum (mergedTotals cs) = (cs.map countsSum).sum := by
  unfold mergedTotals
  have h : ∀ z : Counts, countsSum (cs.foldl addCounts z) =
      countsSum z + (cs.map countsSum).sum := by
    induction cs with
    | nil => intro z; simp
    | cons c cs ih =>
        intro z
        rw [List.foldl_cons, ih, List.map_cons, List.sum_cons]
        unfold addCounts countsSum
        dsimp only
        omega
  rw [h zeroCounts]
  simp [zeroCounts, countsSum]

/-- C6: when every thread performs total_ops / thread_count iterations and
the merged totals are formed, member_count + insert_count + delete_count
equals thread_count * (total_ops / thread_count) (truncating division); in
particular it equals total_ops whenever thread_count divides total_ops. -/
theorem counter_conservation (total_ops thread_count : Nat)
    (hpos : 0 < thread_count) (sp ip : ℚ) (l : List Int)
    (draws : List (List (ℚ × Int)))
    (hthreads : draws.length = thread_count)
    (hops : ∀ d ∈ draws, d.length = total_ops / thread_count) :
    countsSum (mergedTotals
        (draws.map (fun d => (Thread_work sp ip d l).2))) =
      thread_count * (total_ops / thread_count) ∧
    (thread_count ∣ total_ops →
      countsSum (mergedTotals
          (draws.map (fun d => (Thread_work sp ip d l).2))) = total_ops) := by
  have hsum : countsSum (mergedTotals
      (draws.map (fun d => (Thread_work sp ip d l).2))) =
      thread_count * (total_ops / thread_count) := by
    rw [mergedTotals_countsSum, List.map_map]
    have hconst : ∀ d ∈ draws,
        (countsSum ∘ fun d => (Thread_work sp ip d l).2) d =
          total_ops / thread_count := by
      intro d hd
      simp only [Function.comp_apply, thread_work_countsSum]
      exact hops d hd
    rw [List.sum_eq_card_nsmul _ _ (by
      intro x hx
      rcases List.mem_map.mp hx with ⟨d, hd, hdx⟩
      rw [← hdx]
      exact hconst d hd)]
    simp [hthreads, Nat.mul_comm]
  refine ⟨hsum, fun hdvd => ?_⟩
  rw [hsum, Nat.mul_div_cancel' hdvd]

/-- Witness for C6: two threads, four total operations, two draws each;
the merged totals sum to 4 = 2 * (4 / 2). -/
theorem counter_conservation_witness :
    countsSum (mergedTotals
        (([[((0 : ℚ), (1 : Int)), (1, 2)],
           [((1 : ℚ), (3 : Int)), (0, 4)]] :
          List (List (ℚ × Int))).map
          (fun d => (Thread_work (1/2) (1/4) d []).2))) = 4 :=
  (counter_conservation 4 2 (by decide) (1/2) (1/4) []
      [[((0 : ℚ), (1 : Int)), (1, 2)], [((1 : ℚ), (3 : Int)), (0, 4)]]
      rfl (by intro d hd; fin_cases hd <;> rfl)).2 ⟨2, rfl⟩

/-- C9: the selector classifies every iteration by cumulative thresholds:
below search_percent it searches under the read lock, the list is unchanged
and only the member counter is bumped; between search_percent and
search_percent + insert_percent it inserts under the write lock and bumps
only the insert counter; at or above search_percent + insert_percent it
deletes under the write lock and bumps only the delete counter
(percentages are nonnegative, as configured from [0,1] fractions). -/
theorem thread_work_classification (sp ip which_op : ℚ) (val : Int)
    (l : List Int) (c : Counts) (hsp : 0 ≤ sp) (hip : 0 ≤ ip) :
    (which_op < sp →
      iterLockMode sp which_op = .readLock ∧
      threadIter sp ip (l, c) (which_op, val) =
        (l, { c with member_count := c.member_count + 1 })) ∧
    (sp ≤ which_op → which_op < sp + ip →
      iterLockMode sp which_op = .writeLock ∧
      threadIter sp ip (l, c) (which_op, val) =
        ((Insert val l).1,
         { c with insert_count := c.insert_count + 1 })) ∧
    (sp + ip ≤ which_op →
      iterLockMode sp which_op = .writeLock ∧
      threadIter sp ip (l, c) (which_op, val) =
        ((Delete val l).1,
         { c with delete_count := c.delete_count + 1 })) := by
  refine ⟨fun h1 => ?_, fun h1 h2 => ?_, fun h1 => ?_⟩
  · constructor
    · simp [iterLockMode, h1]
    · simp [threadIter, h1]
  · constructor
    · simp [iterLockMode, not_lt.mpr h1]
    · simp [threadIter, not_lt.mpr h1, h2]
  · have h2 : ¬ which_op < sp := by linarith
    have h3 : ¬ which_op < sp + ip := not_lt.mpr h1
    constructor
    · simp [iterLockMode, h2]
    · simp [threadIter, h2, h3]

/-- Witness for C9: with search_percent = 1/2 and insert_percent = 1/4, a
selector of 1/4 classifies as a search under the read lock, bumping only
the member counter. -/
theorem thread_work_classification_witness :
    iterLockMode (1/2) (1/4) = LockMode.readLock ∧
    threadIter (1/2) (1/4) ([], zeroCounts) ((1/4 : ℚ), (7 : Int)) =
      ([], { zeroCounts with
             member_count := zeroCounts.member_count + 1 }) :=
  (thread_work_classification (1/2) (1/4) (1/4) 7 [] zeroCounts
      (by norm_num) (by norm_num)).1 (by norm_num)

end Harness
